import Mathlib

/-!
Shallow embedding of the mean-curvature-flow skeleton core of this repository
(`Mean_curvature_skeleton.h`) together with the parts of the driver interface
that the demo plugin (`Polyhedron_demo_mean_curvature_flow_skeleton_plugin.cpp`)
calls but whose implementation is not among the given sources; those parts are
modelled from the specification and are marked as such in their doc comments.

`double` is modelled as `Int`; the claims under study are structural (which
matrix/vector entries receive which values, what state is mutated), not about
floating-point rounding, so exact arithmetic is the faithful shallow embedding.
-/

namespace MCFSkel

/-- A 3D point (Kernel::Point_3) with coordinates in the exact scalar type. -/
structure Point where
  x : Int
  y : Int
  z : Int
deriving DecidableEq, Repr

/-- A mesh vertex: a 3D position plus the `fixed` flag.  The position is what
`vi->point()` reads/writes in the source.  The `fixed` flag is modelled from
the spec (§3 Vertex): the `Polyhedron` type with per-vertex flags is not among
the given sources; the header under study never reads the flag. -/
structure Vertex where
  pos : Point
  fixed : Bool
deriving DecidableEq, Repr

/-- Default vertex used for out-of-range `getD` lookups. -/
def dfltV : Vertex := ⟨⟨0, 0, 0⟩, false⟩

/-- A directed halfedge of the polyhedron, from `src` to `tgt`.  In the boost
graph view of `CGAL::Polyhedron_3`, `edges(P)` enumerates halfedges and
`boost::source` returns the origin vertex. -/
structure HEdge where
  src : Nat
  tgt : Nat
deriving DecidableEq, Repr

/-- Default halfedge for out-of-range `getD` lookups. -/
def dfltE : HEdge := ⟨0, 0⟩

/-- The mesh: vertices and halfedges addressed by their descriptor, which is
the index into the respective list (iteration order of `boost::vertices` /
`boost::edges`).  Faces are carried only to state frame conditions; the code
under study never touches them. -/
structure Mesh where
  vertices : List Vertex
  edges : List HEdge
  faces : List (Nat × Nat × Nat)
deriving DecidableEq, Repr

/-- `boost::num_vertices`. -/
def numVertices (m : Mesh) : Nat := m.vertices.length

/-- `boost::num_edges` (counts halfedges, as the boost graph view of a
polyhedron does). -/
def numEdges (m : Mesh) : Nat := m.edges.length

/-- `boost::in_edges(v)`: the descriptors of the halfedges whose target is
`v`, in edge-enumeration order. -/
def inEdges (m : Mesh) (v : Nat) : List Nat :=
  (List.range m.edges.length).filter (fun e => (m.edges.getD e dfltE).tgt = v)

/-- The sparse matrix of `SparseLinearAlgebraTraits_d`, modelled by its
coefficient map.  `set_coef` in both its create-new-coefficient and its
overwrite form is modelled as a store into the map. -/
def Mat : Type := Nat → Nat → Int

/-- The all-zero matrix (a freshly constructed `Matrix(rows, cols)`). -/
def Mat.zero : Mat := fun _ _ => 0

/-- `A.set_coef(i, j, v)` (and `A.set_coef(i, j, v, true)`): store `v` at
row `i`, column `j`. -/
def set_coef (A : Mat) (i j : Nat) (v : Int) : Mat :=
  fun a b => if a = i ∧ b = j then v else A a b

/-- A dense vector of the solver traits, modelled by its entry map. -/
def Vec : Type := Nat → Int

/-- The all-zero vector (a freshly constructed `Vector(n)`). -/
def Vec.zero : Vec := fun _ => 0

/-- `B[i] = v`: store `v` at index `i`. -/
def setEntry (B : Vec) (i : Nat) (v : Int) : Vec :=
  fun a => if a = i then v else B a

/-- The sparse solver adapter (`SparseLinearAlgebraTraits_d`): a
pre-factorization returning a success flag and a determinant-like value `D`,
and a solve returning a success flag and the solution vector. -/
structure Solver where
  pre_factor_non_symmetric : Mat → Bool × Int
  linear_solver_non_symmetric : Mat → Vec → Bool × Vec

/-- The state of a `Mean_curvature_skeleton` object.  The first seven fields
are the data members of the class in the given header; `edgelength_TH`,
`zero_TH`, `local_extent` and `fixed_points` support the driver interface the
demo plugin calls (`set_edgelength_TH`, `set_zero_TH`, `detect_degeneracies`,
`get_fixed_points`), whose implementation is not among the given sources and
is modelled from the spec (§3, §4.5, §6). -/
structure MCS where
  mesh : Mesh
  vertex_id_pmap : List Nat
  edge_id_pmap : List Nat
  weight_calculator : Nat → Mesh → Int
  edge_weight : List Int
  m_solver : Solver
  omega_L : Int
  omega_H : Int
  edgelength_TH : Int
  zero_TH : Int
  local_extent : Nat → Mesh → Int
  fixed_points : List Point

/-- The constructor: stores the mesh, the weight calculator and the
parameters, and initializes the two id property maps by enumerating vertices
and edges, assigning consecutive ids starting from 0. -/
def mkSkeleton (P : Mesh) (wc : Nat → Mesh → Int) (solver : Solver)
    (le : Nat → Mesh → Int) (oL oH eTH zTH : Int) : MCS :=
  { mesh := P
    vertex_id_pmap := List.range P.vertices.length
    edge_id_pmap := List.range P.edges.length
    weight_calculator := wc
    edge_weight := []
    m_solver := solver
    omega_L := oL
    omega_H := oH
    edgelength_TH := eTH
    zero_TH := zTH
    local_extent := le
    fixed_points := [] }

/-- `compute_edge_weight()`: reserves capacity (no semantic effect) and then
`push_back`s the weight of every halfedge, in edge-enumeration order, onto the
member vector `edge_weight`.  Note that the member is never cleared, so the
new weights are appended after whatever the vector already holds. -/
def compute_edge_weight (s : MCS) : MCS :=
  { s with edge_weight :=
      s.edge_weight ++
        (List.range s.mesh.edges.length).map (fun e => s.weight_calculator e s.mesh) }

/-- The body of the first loop of `assemble_LHS` for index `i`: set
`A(i, i) = 0` and `A(i + nver, i) = omega_H`. -/
def lhsInitStep (s : MCS) (A : Mat) (i : Nat) : Mat :=
  set_coef (set_coef A i i 0) (i + numVertices s.mesh) i s.omega_H

/-- The first loop of `assemble_LHS`, over `i` in `[0, nver)`. -/
def lhsInit (s : MCS) (A : Mat) : Mat :=
  (List.range (numVertices s.mesh)).foldl (lhsInitStep s) A

/-- `wij` as `assemble_LHS` computes it for a halfedge descriptor `e`:
`edge_weight[get(edge_id_pmap, e)] * 2.0`. -/
def wij (s : MCS) (e : Nat) : Int :=
  s.edge_weight.getD (s.edge_id_pmap.getD e 0) 0 * 2

/-- The column `j` that `assemble_LHS` writes for a halfedge descriptor `e`:
the id of the source vertex of `e`. -/
def colOf (s : MCS) (e : Nat) : Nat :=
  s.vertex_id_pmap.getD ((s.mesh.edges.getD e dfltE).src) 0

/-- The body of the in-edge loop of `assemble_LHS` for row `i`: write
`A(i, j) = wij * omega_L` and accumulate `diagonal += -wij`. -/
def lhsEdgeStep (s : MCS) (i : Nat) (p : Mat × Int) (e : Nat) : Mat × Int :=
  (set_coef p.1 i (colOf s e) (wij s e * s.omega_L), p.2 - wij s e)

/-- The body of the second loop of `assemble_LHS` for one vertex descriptor
`vb`: let `i` be its id; run the in-edge loop starting from `diagonal = 0`;
finally overwrite `A(i, i) = diagonal`. -/
def lhsRow (s : MCS) (A : Mat) (vb : Nat) : Mat :=
  let i := s.vertex_id_pmap.getD vb 0
  let p := (inEdges s.mesh vb).foldl (lhsEdgeStep s i) (A, 0)
  set_coef p.1 i i p.2

/-- `assemble_LHS(A)`: the initialization loop followed by the per-vertex
row-assembly loop over all vertex descriptors. -/
def assemble_LHS (s : MCS) (A : Mat) : Mat :=
  (List.range (numVertices s.mesh)).foldl (lhsRow s) (lhsInit s A)

/-- The first loop of `assemble_RHS` on one channel: `B[i] = 0` for `i` in
`[0, nver)`. -/
def zeroLoop (n : Nat) (B : Vec) : Vec :=
  (List.range n).foldl (fun B i => setEntry B i 0) B

/-- The second loop of `assemble_RHS` on one channel, for one vertex
descriptor `vb` with id `i`: `B[i + nver] = coord(position(vb)) * omega_H`. -/
def anchorStep (s : MCS) (coord : Point → Int) (B : Vec) (vb : Nat) : Vec :=
  setEntry B (s.vertex_id_pmap.getD vb 0 + numVertices s.mesh)
    (coord (s.mesh.vertices.getD vb dfltV).pos * s.omega_H)

/-- One coordinate channel of `assemble_RHS`: zero the entries `[0, nver)`
and then anchor every vertex's coordinate at its id plus `nver`. -/
def rhsChannel (s : MCS) (coord : Point → Int) (B : Vec) : Vec :=
  (List.range (numVertices s.mesh)).foldl (anchorStep s coord)
    (zeroLoop (numVertices s.mesh) B)

/-- `assemble_RHS(Bx, By, Bz)`: assembles the three right-hand sides from the
current vertex positions. -/
def assemble_RHS (s : MCS) (Bx By Bz : Vec) : Vec × Vec × Vec :=
  (rhsChannel s Point.x Bx, rhsChannel s Point.y By, rhsChannel s Point.z Bz)

/-- The write-back loop of `contract_geometry`: each vertex in turn gets its
position overwritten by `f` of its descriptor; nothing else in the vertex
record is touched. -/
def updatePositions (f : Nat → Point) : List Vertex → Nat → List Vertex
  | [], _ => []
  | v :: vs, k => { v with pos := f k } :: updatePositions f vs (k + 1)

/-- The left-hand side `contract_geometry` assembles: the matrix `A` built on
a freshly constructed (all-zero) matrix after recomputing edge weights. -/
def lhsOf (s : MCS) : Mat := assemble_LHS (compute_edge_weight s) Mat.zero

/-- The right-hand sides `contract_geometry` assembles, from the pre-step
vertex positions. -/
def rhsOf (s : MCS) : Vec × Vec × Vec :=
  assemble_RHS (compute_edge_weight s) Vec.zero Vec.zero Vec.zero

/-- The x-channel solution vector the solver returns inside
`contract_geometry` (its success flag is discarded by the source). -/
def solX (s : MCS) : Vec :=
  (s.m_solver.linear_solver_non_symmetric (lhsOf s) (rhsOf s).1).2

/-- The y-channel solution vector (flag discarded by the source). -/
def solY (s : MCS) : Vec :=
  (s.m_solver.linear_solver_non_symmetric (lhsOf s) (rhsOf s).2.1).2

/-- The z-channel solution vector (flag discarded by the source). -/
def solZ (s : MCS) : Vec :=
  (s.m_solver.linear_solver_non_symmetric (lhsOf s) (rhsOf s).2.2).2

/-- `contract_geometry()`: recompute all edge weights, assemble `A` and
`Bx/By/Bz`, call `pre_factor_non_symmetric` (its result is discarded by the
source) and the three solves (their success flags are discarded by the
source), and copy the solution vectors back into the mesh as the new vertex
positions. -/
def contract_geometry (s0 : MCS) : MCS :=
  let s := compute_edge_weight s0
  let _fd := s.m_solver.pre_factor_non_symmetric (lhsOf s0)
  let newPos : Nat → Point := fun vb =>
    let i := s.vertex_id_pmap.getD vb 0
    ⟨solX s0 i, solY s0 i, solZ s0 i⟩
  { s with mesh :=
      { s.mesh with vertices := updatePositions newPos s.mesh.vertices 0 } }

/-- Modelled from the spec: `ConfigurationError` — threshold values outside
the valid range are rejected at the setter (§7). -/
inductive ConfigurationError where
  | outOfRange
deriving DecidableEq, Repr

/-- `set_omega_L`, called by the demo plugin between iterations; the spec
places no range restriction on the smoothing weight, so every value is
stored. -/
def set_omega_L (s : MCS) (v : Int) : MCS × Option ConfigurationError :=
  ({ s with omega_L := v }, none)

/-- `set_omega_H`, called by the demo plugin between iterations; the spec
places no range restriction on the anchoring weight, so every value is
stored. -/
def set_omega_H (s : MCS) (v : Int) : MCS × Option ConfigurationError :=
  ({ s with omega_H := v }, none)

/-- Modelled from the spec: `set_edgelength_TH` — a negative short-edge
threshold is outside the valid range and is rejected with
`ConfigurationError`, leaving the stored parameter unchanged (§7); the
implementation behind the plugin call is not among the given sources. -/
def set_edgelength_TH (s : MCS) (v : Int) : MCS × Option ConfigurationError :=
  if v < 0 then (s, some ConfigurationError.outOfRange)
  else ({ s with edgelength_TH := v }, none)

/-- Modelled from the spec: `set_zero_TH` — a negative numerical tolerance is
outside the valid range and is rejected with `ConfigurationError`, leaving
the stored parameter unchanged (§7); the implementation behind the plugin
call is not among the given sources. -/
def set_zero_TH (s : MCS) (v : Int) : MCS × Option ConfigurationError :=
  if v < 0 then (s, some ConfigurationError.outOfRange)
  else ({ s with zero_TH := v }, none)

/-- Getter for `omega_L`. -/
def get_omega_L (s : MCS) : Int := s.omega_L

/-- Getter for `omega_H`. -/
def get_omega_H (s : MCS) : Int := s.omega_H

/-- Getter for `edgelength_TH`. -/
def get_edgelength_TH (s : MCS) : Int := s.edgelength_TH

/-- Getter for `zero_TH`. -/
def get_zero_TH (s : MCS) : Int := s.zero_TH

/-- `get_fixed_points`: read-only snapshot of the accumulated fixed
positions (the spec-modelled append-only sequence). -/
def get_fixed_points (s : MCS) : List Point := s.fixed_points

/-- Modelled from the spec: `detect_degeneracies()` (§4.5) — examine each
vertex; when its local-extent measure falls below `zero_TH` and it is not yet
fixed, mark it fixed and append its current position to the fixed-point set;
return the count newly fixed.  The implementation behind the plugin call is
not among the given sources.  `detectStep` is the per-vertex body of the
scan. -/
def detectStep (p : MCS × Nat) (vb : Nat) : MCS × Nat :=
  let t := p.1
  let v := t.mesh.vertices.getD vb dfltV
  if v.fixed = false ∧ t.local_extent vb t.mesh < t.zero_TH then
    ({ t with
        mesh := { t.mesh with vertices := t.mesh.vertices.set vb { v with fixed := true } }
        fixed_points := t.fixed_points ++ [v.pos] }, p.2 + 1)
  else p

/-- Modelled from the spec: the scan of `detect_degeneracies` over all vertex
descriptors, threading the count of newly fixed vertices. -/
def detect_degeneracies (s : MCS) : MCS × Nat :=
  (List.range (numVertices s.mesh)).foldl detectStep (s, 0)

/-- Modelled from the spec: the operations a driver instance may perform
between its construction and its destruction.  `topo` stands for the
Topology Maintainer's `collapse_short_edges` / `iteratively_split_triangles`
(not among the given sources), which per spec (§4.4) rewrite the mesh but do
not touch the fixed-point set or the parameters. -/
inductive DriverOp where
  | contract
  | detect
  | topo (f : Mesh → Mesh)
  | setOmegaL (v : Int)
  | setOmegaH (v : Int)
  | setEdgeTH (v : Int)
  | setZeroTH (v : Int)

/-- Apply one driver operation to the skeleton state; a rejected setter
leaves the state as it was. -/
def applyOp (s : MCS) : DriverOp → MCS
  | DriverOp.contract => contract_geometry s
  | DriverOp.detect => (detect_degeneracies s).1
  | DriverOp.topo f => { s with mesh := f s.mesh }
  | DriverOp.setOmegaL v => (set_omega_L s v).1
  | DriverOp.setOmegaH v => (set_omega_H s v).1
  | DriverOp.setEdgeTH v => (set_edgelength_TH s v).1
  | DriverOp.setZeroTH v => (set_zero_TH s v).1

/-- Apply a sequence of driver operations in order. -/
def applyOps (s : MCS) (ops : List DriverOp) : MCS := ops.foldl applyOp s

/-! ### Helper lemmas about the write-back loop -/

theorem updatePositions_length (f : Nat → Point) (l : List Vertex) (k : Nat) :
    (updatePositions f l k).length = l.length := by
  induction l generalizing k with
  | nil => rfl
  | cons v vs ih => simp [updatePositions, ih]

theorem updatePositions_getD (f : Nat → Point) (l : List Vertex) (k vb : Nat)
    (h : vb < l.length) :
    (updatePositions f l k).getD vb dfltV =
      { l.getD vb dfltV with pos := f (k + vb) } := by
  induction l generalizing k vb with
  | nil => simp at h
  | cons v vs ih =>
    cases vb with
    | zero => simp [updatePositions, List.getD]
    | succ m =>
      have hm : m < vs.length := by simpa using h
      have := ih (k + 1) m hm
      simp only [updatePositions, List.getD_cons_succ]
      rw [this]
      ring_nf

/-! ### Frame lemmas for `contract_geometry` -/

theorem contract_mesh_edges (s : MCS) :
    (contract_geometry s).mesh.edges = s.mesh.edges := rfl

theorem contract_mesh_faces (s : MCS) :
    (contract_geometry s).mesh.faces = s.mesh.faces := rfl

theorem contract_vertex_id_pmap (s : MCS) :
    (contract_geometry s).vertex_id_pmap = s.vertex_id_pmap := rfl

theorem contract_edge_id_pmap (s : MCS) :
    (contract_geometry s).edge_id_pmap = s.edge_id_pmap := rfl

theorem contract_fixed_points (s : MCS) :
    (contract_geometry s).fixed_points = s.fixed_points := rfl

theorem contract_mesh_vertices (s : MCS) :
    (contract_geometry s).mesh.vertices =
      updatePositions
        (fun vb =>
          let i := s.vertex_id_pmap.getD vb 0
          ⟨solX s i, solY s i, solZ s i⟩)
        s.mesh.vertices 0 := rfl

theorem contract_num_vertices (s : MCS) :
    numVertices (contract_geometry s).mesh = numVertices s.mesh := by
  unfold numVertices
  rw [contract_mesh_vertices, updatePositions_length]

/-- The position a vertex descriptor holds after `contract_geometry`: the
solver's solution components at the vertex's id. -/
theorem contract_pos (s : MCS) (vb : Nat) (h : vb < numVertices s.mesh) :
    ((contract_geometry s).mesh.vertices.getD vb dfltV).pos =
      ⟨solX s (s.vertex_id_pmap.getD vb 0),
       solY s (s.vertex_id_pmap.getD vb 0),
       solZ s (s.vertex_id_pmap.getD vb 0)⟩ := by
  rw [contract_mesh_vertices, updatePositions_getD _ _ _ _ h]
  simp

/-- The fixed flag of every vertex descriptor survives `contract_geometry`
unchanged. -/
theorem contract_fixed_flag (s : MCS) (vb : Nat) :
    ((contract_geometry s).mesh.vertices.getD vb dfltV).fixed =
      (s.mesh.vertices.getD vb dfltV).fixed := by
  by_cases h : vb < numVertices s.mesh
  · rw [contract_mesh_vertices, updatePositions_getD _ _ _ _ h]
  · have h1 : s.mesh.vertices.length ≤ vb := by
      simpa [numVertices] using h
    have h2 : (contract_geometry s).mesh.vertices.length ≤ vb := by
      rw [contract_mesh_vertices, updatePositions_length]; exact h1
    rw [List.getD_eq_default _ _ h1, List.getD_eq_default _ _ h2]

/-! ### Concrete instances used by witnesses and counterexamples -/

/-- A one-vertex mesh with no edges. -/
def cMesh1 : Mesh := ⟨[⟨⟨0, 0, 0⟩, false⟩], [], []⟩

/-- A one-vertex mesh whose single vertex is already fixed. -/
def cMesh2 : Mesh := ⟨[⟨⟨0, 0, 0⟩, true⟩], [], []⟩

/-- A two-vertex mesh joined by the two opposite halfedges. -/
def cMesh3 : Mesh := ⟨[⟨⟨0, 0, 0⟩, false⟩, ⟨⟨1, 0, 0⟩, false⟩], [⟨0, 1⟩, ⟨1, 0⟩], []⟩

/-- A solver whose factorization reports failure (singular matrix) and whose
solves also report failure while returning the constant-7 vector. -/
def failSolver : Solver := ⟨fun _ => (false, 0), fun _ _ => (false, fun _ => 7)⟩

/-- A solver that reports success and returns the constant-3 vector. -/
def okSolver3 : Solver := ⟨fun _ => (true, 1), fun _ _ => (true, fun _ => 3)⟩

/-- A solver that reports success and returns the constant-5 vector. -/
def okSolver5 : Solver := ⟨fun _ => (true, 1), fun _ _ => (true, fun _ => 5)⟩

/-- A weight calculator that reads geometry: the weight of a halfedge is the
x-coordinate of its source vertex. -/
def srcXWeight : Nat → Mesh → Int :=
  fun e m => (m.vertices.getD ((m.edges.getD e dfltE).src) dfltV).pos.x

/-- Skeleton state on `cMesh1` whose solver reports failure. -/
def cState1 : MCS := mkSkeleton cMesh1 (fun _ _ => 0) failSolver (fun _ _ => 0) 1 1 1 1

/-- Skeleton state on `cMesh2` (fixed vertex) with a succeeding solver. -/
def cState2 : MCS := mkSkeleton cMesh2 (fun _ _ => 0) okSolver3 (fun _ _ => 0) 1 1 1 1

/-- Skeleton state on `cMesh3` with geometry-dependent weights and a solver
that moves every coordinate to 5. -/
def cState3 : MCS := mkSkeleton cMesh3 srcXWeight okSolver5 (fun _ _ => 0) 1 1 1 1

/-! ### C9 -/

/-- C9: `contract_geometry` mutates only the vertex positions and the cached
edge-weight vector — it preserves the edge list, the face list, the vertex
count, every vertex's fixed flag, both id maps, all four parameters and the
fixed-point set. -/
theorem C9_contract_frame (s : MCS) :
    (contract_geometry s).mesh.edges = s.mesh.edges ∧
    (contract_geometry s).mesh.faces = s.mesh.faces ∧
    (contract_geometry s).mesh.vertices.length = s.mesh.vertices.length ∧
    (∀ vb, ((contract_geometry s).mesh.vertices.getD vb dfltV).fixed =
      (s.mesh.vertices.getD vb dfltV).fixed) ∧
    (contract_geometry s).vertex_id_pmap = s.vertex_id_pmap ∧
    (contract_geometry s).edge_id_pmap = s.edge_id_pmap ∧
    (contract_geometry s).omega_L = s.omega_L ∧
    (contract_geometry s).omega_H = s.omega_H ∧
    (contract_geometry s).edgelength_TH = s.edgelength_TH ∧
    (contract_geometry s).zero_TH = s.zero_TH ∧
    (contract_geometry s).fixed_points = s.fixed_points := by
  refine ⟨rfl, rfl, ?_, contract_fixed_flag s, rfl, rfl, rfl, rfl, rfl, rfl, rfl⟩
  rw [contract_mesh_vertices, updatePositions_length]

/-! ### C1 -/

/-- C1 (counterexample): on a concrete one-vertex mesh whose solver reports a
failed factorization, `contract_geometry` does not fail — it writes the
solver-returned vector back, changing the vertex position. -/
theorem C1_counterexample :
    (cState1.m_solver.pre_factor_non_symmetric (lhsOf cState1)).1 = false ∧
    ((contract_geometry cState1).mesh.vertices.getD 0 dfltV).pos ≠
      (cState1.mesh.vertices.getD 0 dfltV).pos := by
  decide

/-- C1 (amended): `contract_geometry` ignores the solver's status flags —
even when the pre-factorization reports failure, it returns normally and
overwrites every vertex position with the solver-returned solution
components; no `NumericalError` exists in the code and the caller cannot
observe the failure. -/
theorem C1_amended (s : MCS) (vb : Nat) (h : vb < numVertices s.mesh)
    (_hfail : (s.m_solver.pre_factor_non_symmetric (lhsOf s)).1 = false) :
    ((contract_geometry s).mesh.vertices.getD vb dfltV).pos =
      ⟨solX s (s.vertex_id_pmap.getD vb 0),
       solY s (s.vertex_id_pmap.getD vb 0),
       solZ s (s.vertex_id_pmap.getD vb 0)⟩ :=
  contract_pos s vb h

/-- C1 (witness): the amended statement instantiated on the concrete failing
state. -/
theorem C1_amended_witness :
    (cState1.m_solver.pre_factor_non_symmetric (lhsOf cState1)).1 = false ∧
    ((contract_geometry cState1).mesh.vertices.getD 0 dfltV).pos =
      ⟨solX cState1 (cState1.vertex_id_pmap.getD 0 0),
       solY cState1 (cState1.vertex_id_pmap.getD 0 0),
       solZ cState1 (cState1.vertex_id_pmap.getD 0 0)⟩ :=
  ⟨by decide, C1_amended cState1 0 (by decide) (by decide)⟩

/-! ### C4 -/

/-- C4 (counterexample): on a concrete mesh whose single vertex has
`fixed = true`, `contract_geometry` still displaces that vertex: its position
changes from the origin to the solver-returned value. -/
theorem C4_counterexample :
    (cState2.mesh.vertices.getD 0 dfltV).fixed = true ∧
    ((contract_geometry cState2).mesh.vertices.getD 0 dfltV).pos ≠
      (cState2.mesh.vertices.getD 0 dfltV).pos := by
  decide

/-- C4 (amended): `contract_geometry` never consults the fixed flag: a vertex
with `fixed = true` has its position overwritten with the solved value
exactly like any other vertex; exclusion of fixed vertices from smoothing
displacement is not implemented in the write-back. -/
theorem C4_amended (s : MCS) (vb : Nat) (h : vb < numVertices s.mesh)
    (_hfix : (s.mesh.vertices.getD vb dfltV).fixed = true) :
    ((contract_geometry s).mesh.vertices.getD vb dfltV).pos =
      ⟨solX s (s.vertex_id_pmap.getD vb 0),
       solY s (s.vertex_id_pmap.getD vb 0),
       solZ s (s.vertex_id_pmap.getD vb 0)⟩ :=
  contract_pos s vb h

/-- C4 (witness): the amended statement instantiated on the concrete state
with a fixed vertex. -/
theorem C4_amended_witness :
    (cState2.mesh.vertices.getD 0 dfltV).fixed = true ∧
    ((contract_geometry cState2).mesh.vertices.getD 0 dfltV).pos =
      ⟨solX cState2 (cState2.vertex_id_pmap.getD 0 0),
       solY cState2 (cState2.vertex_id_pmap.getD 0 0),
       solZ cState2 (cState2.vertex_id_pmap.getD 0 0)⟩ :=
  ⟨by decide, C4_amended cState2 0 (by decide) (by decide)⟩

/-! ### C10 -/

/-- C10: the position update is simultaneous — recomputing the edge weights
does not alter the mesh, the matrix and all three right-hand sides are
functions of the pre-step state only, and the new position of every vertex is
exactly the solver output on that pre-step system; no vertex's new position
depends on another vertex's already-updated position. -/
theorem C10_simultaneous (s : MCS) (vb : Nat) (h : vb < numVertices s.mesh) :
    (compute_edge_weight s).mesh = s.mesh ∧
    ((contract_geometry s).mesh.vertices.getD vb dfltV).pos =
      ⟨solX s (s.vertex_id_pmap.getD vb 0),
       solY s (s.vertex_id_pmap.getD vb 0),
       solZ s (s.vertex_id_pmap.getD vb 0)⟩ :=
  ⟨rfl, contract_pos s vb h⟩

/-- C10 (witness): the simultaneity statement instantiated on a concrete
two-vertex state. -/
theorem C10_simultaneous_witness :
    (compute_edge_weight cState3).mesh = cState3.mesh ∧
    ((contract_geometry cState3).mesh.vertices.getD 1 dfltV).pos =
      ⟨solX cState3 (cState3.vertex_id_pmap.getD 1 0),
       solY cState3 (cState3.vertex_id_pmap.getD 1 0),
       solZ cState3 (cState3.vertex_id_pmap.getD 1 0)⟩ :=
  C10_simultaneous cState3 1 (by decide)

/-! ### C6 -/

/-- `List.getD` on a range is the index itself, when in bounds. -/
theorem getD_range {k n : Nat} (h : k < n) : (List.range n).getD k 0 = k := by
  simp [List.getD, List.getElem?_range h]

/-- Iterating `contract_geometry` never changes the vertex id map. -/
theorem iterate_contract_vids (s : MCS) (k : Nat) :
    (contract_geometry^[k] s).vertex_id_pmap = s.vertex_id_pmap := by
  induction k with
  | zero => rfl
  | succ m ih => rw [Function.iterate_succ_apply', contract_vertex_id_pmap, ih]

/-- Iterating `contract_geometry` never changes the edge id map. -/
theorem iterate_contract_eids (s : MCS) (k : Nat) :
    (contract_geometry^[k] s).edge_id_pmap = s.edge_id_pmap := by
  induction k with
  | zero => rfl
  | succ m ih => rw [Function.iterate_succ_apply', contract_edge_id_pmap, ih]

/-- Iterating `contract_geometry` never changes the vertex count. -/
theorem iterate_contract_nver (s : MCS) (k : Nat) :
    numVertices (contract_geometry^[k] s).mesh = numVertices s.mesh := by
  induction k with
  | zero => rfl
  | succ m ih => rw [Function.iterate_succ_apply', contract_num_vertices, ih]

/-- Iterating `contract_geometry` never changes the edge count. -/
theorem iterate_contract_nedg (s : MCS) (k : Nat) :
    numEdges (contract_geometry^[k] s).mesh = numEdges s.mesh := by
  induction k with
  | zero => rfl
  | succ m ih =>
    rw [Function.iterate_succ_apply']
    unfold numEdges
    rw [contract_mesh_edges]
    exact ih

/-- C6: after construction, and still at the start of every later contraction
step, the stored vertex ids are a permutation of `[0, n)` for the current
vertex count `n`, and the edge ids are a permutation of `[0, num_edges)`. -/
theorem C6_dense_ids (P : Mesh) (wc : Nat → Mesh → Int) (solver : Solver)
    (le : Nat → Mesh → Int) (oL oH eTH zTH : Int) (k : Nat) :
    ((contract_geometry^[k] (mkSkeleton P wc solver le oL oH eTH zTH)).vertex_id_pmap).Perm
      (List.range
        (numVertices (contract_geometry^[k] (mkSkeleton P wc solver le oL oH eTH zTH)).mesh)) ∧
    ((contract_geometry^[k] (mkSkeleton P wc solver le oL oH eTH zTH)).edge_id_pmap).Perm
      (List.range
        (numEdges (contract_geometry^[k] (mkSkeleton P wc solver le oL oH eTH zTH)).mesh)) := by
  rw [iterate_contract_vids, iterate_contract_eids, iterate_contract_nver,
    iterate_contract_nedg]
  exact ⟨List.Perm.refl _, List.Perm.refl _⟩

/-! ### C5 -/

/-- Frame for the zeroing loop: indices not on the list are untouched. -/
theorem foldl_zero_of_not_mem (l : List Nat) (B : Vec) (r : Nat) (h : r ∉ l) :
    (l.foldl (fun B i => setEntry B i 0) B) r = B r := by
  induction l generalizing B with
  | nil => rfl
  | cons x xs ih =>
    have hx : r ≠ x := fun he => h (he ▸ List.mem_cons_self x xs)
    have hxs : r ∉ xs := fun hm => h (List.mem_cons_of_mem x hm)
    simp only [List.foldl_cons]
    rw [ih _ hxs]
    simp [setEntry, hx]

/-- The zeroing loop writes 0 at every index on the list. -/
theorem foldl_zero_of_mem (l : List Nat) (B : Vec) (r : Nat) (h : r ∈ l) :
    (l.foldl (fun B i => setEntry B i 0) B) r = 0 := by
  induction l generalizing B with
  | nil => simp at h
  | cons x xs ih =>
    simp only [List.foldl_cons]
    by_cases hr : r ∈ xs
    · exact ih _ hr
    · have hx : r = x := by
        rcases List.mem_cons.mp h with h1 | h2
        · exact h1
        · exact absurd h2 hr
      rw [foldl_zero_of_not_mem _ _ _ hr]
      simp [setEntry, hx]

/-- `zeroLoop` zeroes the entries `[0, n)`. -/
theorem zeroLoop_lt {n r : Nat} (B : Vec) (h : r < n) : zeroLoop n B r = 0 :=
  foldl_zero_of_mem _ _ _ (List.mem_range.mpr h)

/-- Frame for the anchoring loop: an index not hit by any write is
untouched. -/
theorem foldl_anchor_frame (s : MCS) (coord : Point → Int) (l : List Nat)
    (B : Vec) (r : Nat)
    (h : ∀ vb ∈ l, s.vertex_id_pmap.getD vb 0 + numVertices s.mesh ≠ r) :
    (l.foldl (anchorStep s coord) B) r = B r := by
  induction l generalizing B with
  | nil => rfl
  | cons x xs ih =>
    simp only [List.foldl_cons]
    rw [ih _ (fun vb hm => h vb (List.mem_cons_of_mem x hm))]
    have hx : ¬(r = s.vertex_id_pmap.getD x 0 + numVertices s.mesh) :=
      fun he => h x (List.mem_cons_self x xs) he.symm
    simp only [anchorStep, setEntry]
    rw [if_neg hx]

/-- The anchoring loop leaves all entries below `nver` untouched. -/
theorem foldl_anchor_lt (s : MCS) (coord : Point → Int) (l : List Nat)
    (B : Vec) (r : Nat) (h : r < numVertices s.mesh) :
    (l.foldl (anchorStep s coord) B) r = B r :=
  foldl_anchor_frame s coord l B r (fun vb _ => by omega)

/-- With densely packed ids, the anchoring loop stores each vertex's scaled
coordinate at its id plus `nver`. -/
theorem foldl_anchor_val (s : MCS) (coord : Point → Int)
    (hid : s.vertex_id_pmap = List.range (numVertices s.mesh))
    (l : List Nat) (B : Vec) (i : Nat) (hi : i ∈ l) (hnd : l.Nodup)
    (hlt : ∀ vb ∈ l, vb < numVertices s.mesh) :
    (l.foldl (anchorStep s coord) B) (i + numVertices s.mesh) =
      coord (s.mesh.vertices.getD i dfltV).pos * s.omega_H := by
  induction l generalizing B with
  | nil => simp at hi
  | cons x xs ih =>
    simp only [List.foldl_cons]
    by_cases hr : i ∈ xs
    · exact ih _ hr hnd.of_cons (fun vb hm => hlt vb (List.mem_cons_of_mem x hm))
    · have hx : i = x := by
        rcases List.mem_cons.mp hi with h1 | h2
        · exact h1
        · exact absurd h2 hr
      subst hx
      have hfr : ∀ vb ∈ xs, s.vertex_id_pmap.getD vb 0 + numVertices s.mesh ≠
          i + numVertices s.mesh := by
        intro vb hm
        have hvb : vb < numVertices s.mesh := hlt vb (List.mem_cons_of_mem _ hm)
        rw [hid, getD_range hvb]
        have : vb ≠ i := fun he => (List.nodup_cons.mp hnd).1 (he ▸ hm)
        omega
      rw [foldl_anchor_frame s coord xs _ _ hfr]
      have hi' : i < numVertices s.mesh := hlt i (List.mem_cons_self _ _)
      simp only [anchorStep, setEntry]
      rw [hid, getD_range hi', if_pos rfl]

/-- C5: after `assemble_RHS`, entries `[0, n)` of all three right-hand sides
are zero, and entry `i + n` holds the corresponding coordinate of the vertex
with id `i`, scaled by `omega_H`. -/
theorem C5_assemble_RHS (s : MCS) (Bx By Bz : Vec)
    (hid : s.vertex_id_pmap = List.range (numVertices s.mesh)) :
    (∀ r, r < numVertices s.mesh →
      (assemble_RHS s Bx By Bz).1 r = 0 ∧
      (assemble_RHS s Bx By Bz).2.1 r = 0 ∧
      (assemble_RHS s Bx By Bz).2.2 r = 0) ∧
    (∀ i, i < numVertices s.mesh →
      (assemble_RHS s Bx By Bz).1 (i + numVertices s.mesh) =
        (s.mesh.vertices.getD i dfltV).pos.x * s.omega_H ∧
      (assemble_RHS s Bx By Bz).2.1 (i + numVertices s.mesh) =
        (s.mesh.vertices.getD i dfltV).pos.y * s.omega_H ∧
      (assemble_RHS s Bx By Bz).2.2 (i + numVertices s.mesh) =
        (s.mesh.vertices.getD i dfltV).pos.z * s.omega_H) := by
  constructor
  · intro r hr
    refine ⟨?_, ?_, ?_⟩ <;>
      simpa [assemble_RHS, rhsChannel, foldl_anchor_lt _ _ _ _ _ hr] using
        zeroLoop_lt _ hr
  · intro i hi
    have hmem : i ∈ List.range (numVertices s.mesh) := List.mem_range.mpr hi
    have hnd := List.nodup_range (numVertices s.mesh)
    have hlt : ∀ vb ∈ List.range (numVertices s.mesh), vb < numVertices s.mesh :=
      fun vb hm => List.mem_range.mp hm
    exact ⟨foldl_anchor_val s Point.x hid _ _ i hmem hnd hlt,
      foldl_anchor_val s Point.y hid _ _ i hmem hnd hlt,
      foldl_anchor_val s Point.z hid _ _ i hmem hnd hlt⟩

/-- C5 (witness): the right-hand-side statement instantiated on the concrete
two-vertex state, starting from a dirty input vector. -/
theorem C5_assemble_RHS_witness :
    ((assemble_RHS cState3 (fun _ => 99) (fun _ => 99) (fun _ => 99)).1 0 = 0) ∧
    ((assemble_RHS cState3 (fun _ => 99) (fun _ => 99) (fun _ => 99)).1
        (1 + numVertices cState3.mesh) =
      (cState3.mesh.vertices.getD 1 dfltV).pos.x * cState3.omega_H) :=
  ⟨((C5_assemble_RHS cState3 (fun _ => 99) (fun _ => 99) (fun _ => 99)
      (by decide)).1 0 (by decide)).1,
   ((C5_assemble_RHS cState3 (fun _ => 99) (fun _ => 99) (fun _ => 99)
      (by decide)).2 1 (by decide)).1⟩

/-! ### C7 -/

/-- One degeneracy-detection step only ever appends to the fixed-point
set. -/
theorem detectStep_fixed_points (p : MCS × Nat) (vb : Nat) :
    ∃ t, (detectStep p vb).1.fixed_points = p.1.fixed_points ++ t := by
  simp only [detectStep]
  by_cases h : (p.1.mesh.vertices.getD vb dfltV).fixed = false ∧
      p.1.local_extent vb p.1.mesh < p.1.zero_TH
  · exact ⟨[(p.1.mesh.vertices.getD vb dfltV).pos], by rw [if_pos h]⟩
  · exact ⟨[], by rw [if_neg h]; simp⟩

/-- The degeneracy-detection scan only ever appends to the fixed-point
set. -/
theorem detect_fold_fixed_points (l : List Nat) (p : MCS × Nat) :
    ∃ t, (l.foldl detectStep p).1.fixed_points = p.1.fixed_points ++ t := by
  induction l generalizing p with
  | nil => exact ⟨[], by simp⟩
  | cons x xs ih =>
    obtain ⟨t1, h1⟩ := detectStep_fixed_points p x
    obtain ⟨t2, h2⟩ := ih (detectStep p x)
    exact ⟨t1 ++ t2, by simp only [List.foldl_cons, h2, h1, List.append_assoc]⟩

/-- No single driver operation removes anything from the fixed-point set. -/
theorem applyOp_fixed_points (s : MCS) (op : DriverOp) :
    ∃ t, (applyOp s op).fixed_points = s.fixed_points ++ t := by
  cases op with
  | contract => exact ⟨[], by simp [applyOp, contract_fixed_points]⟩
  | detect => exact detect_fold_fixed_points _ _
  | topo f => exact ⟨[], by simp [applyOp]⟩
  | setOmegaL v => exact ⟨[], by simp [applyOp, set_omega_L]⟩
  | setOmegaH v => exact ⟨[], by simp [applyOp, set_omega_H]⟩
  | setEdgeTH v =>
    refine ⟨[], ?_⟩
    simp only [applyOp, set_edgelength_TH]
    by_cases h : v < 0 <;> simp [h]
  | setZeroTH v =>
    refine ⟨[], ?_⟩
    simp only [applyOp, set_zero_TH]
    by_cases h : v < 0 <;> simp [h]

/-- C7: across any sequence of driver operations on one instance, the
fixed-point set exposed by `get_fixed_points` never shrinks — the set before
the sequence is an initial segment of the set after it, so every recorded
position stays present for as long as the instance lives. -/
theorem C7_fixed_points_monotone (s : MCS) (ops : List DriverOp) :
    ∃ t, get_fixed_points (applyOps s ops) = get_fixed_points s ++ t := by
  induction ops generalizing s with
  | nil => exact ⟨[], by simp [applyOps, get_fixed_points]⟩
  | cons op rest ih =>
    obtain ⟨t1, h1⟩ := applyOp_fixed_points s op
    obtain ⟨t2, h2⟩ := ih (applyOp s op)
    refine ⟨t1 ++ t2, ?_⟩
    have : applyOps s (op :: rest) = applyOps (applyOp s op) rest := rfl
    rw [this, h2]
    simp only [get_fixed_points] at h1 ⊢
    rw [h1, List.append_assoc]

/-! ### C8 -/

/-- C8: each of the four parameters has a setter; in-range values are stored
and report no error, while an out-of-range (negative) threshold value is
rejected with `ConfigurationError.outOfRange` and the stored parameter is
left unchanged. -/
theorem C8_setters (s : MCS) (v : Int) :
    ((set_omega_L s v).1.omega_L = v ∧ (set_omega_L s v).2 = none) ∧
    ((set_omega_H s v).1.omega_H = v ∧ (set_omega_H s v).2 = none) ∧
    (0 ≤ v → (set_edgelength_TH s v).1.edgelength_TH = v ∧
      (set_edgelength_TH s v).2 = none) ∧
    (v < 0 → (set_edgelength_TH s v).2 = some ConfigurationError.outOfRange ∧
      get_edgelength_TH (set_edgelength_TH s v).1 = get_edgelength_TH s) ∧
    (0 ≤ v → (set_zero_TH s v).1.zero_TH = v ∧ (set_zero_TH s v).2 = none) ∧
    (v < 0 → (set_zero_TH s v).2 = some ConfigurationError.outOfRange ∧
      get_zero_TH (set_zero_TH s v).1 = get_zero_TH s) := by
  refine ⟨⟨rfl, rfl⟩, ⟨rfl, rfl⟩, ?_, ?_, ?_, ?_⟩ <;> intro h
  · simp [set_edgelength_TH, not_lt.mpr h]
  · simp [set_edgelength_TH, get_edgelength_TH, h]
  · simp [set_zero_TH, not_lt.mpr h]
  · simp [set_zero_TH, get_zero_TH, h]

/-- C8 (witness): the setter contract instantiated on the concrete state,
with an accepted value 7 and a rejected value -1. -/
theorem C8_setters_witness :
    ((set_edgelength_TH cState3 7).1.edgelength_TH = 7 ∧
      (set_edgelength_TH cState3 7).2 = none) ∧
    ((set_edgelength_TH cState3 (-1)).2 = some ConfigurationError.outOfRange ∧
      get_edgelength_TH (set_edgelength_TH cState3 (-1)).1 =
        get_edgelength_TH cState3) :=
  ⟨(C8_setters cState3 7).2.2.1 (by decide),
   (C8_setters cState3 (-1)).2.2.2.1 (by decide)⟩

/-! ### C3: lemmas about the in-edge loop of `assemble_LHS` -/

/-- The accumulated diagonal after the in-edge loop: the initial value minus
the sum of the `wij` of the visited halfedges. -/
theorem lhsEdgeStep_fold_snd (s : MCS) (i : Nat) (l : List Nat) (p : Mat × Int) :
    (l.foldl (lhsEdgeStep s i) p).2 = p.2 - (l.map (wij s)).sum := by
  induction l generalizing p with
  | nil => simp
  | cons x xs ih =>
    simp only [List.foldl_cons, List.map_cons, List.sum_cons, ih, lhsEdgeStep]
    omega

/-- The in-edge loop for row `i` leaves every other row untouched. -/
theorem lhsEdgeStep_fold_other_row (s : MCS) (i : Nat) (l : List Nat)
    (p : Mat × Int) (a b : Nat) (ha : a ≠ i) :
    (l.foldl (lhsEdgeStep s i) p).1 a b = p.1 a b := by
  induction l generalizing p with
  | nil => rfl
  | cons x xs ih =>
    simp only [List.foldl_cons]
    rw [ih]
    simp only [lhsEdgeStep, set_coef]
    rw [if_neg (fun hc => ha hc.1)]

/-- The in-edge loop leaves the columns of row `i` it never writes
untouched. -/
theorem lhsEdgeStep_fold_other_col (s : MCS) (i : Nat) (l : List Nat)
    (p : Mat × Int) (b : Nat) (hb : ∀ e ∈ l, colOf s e ≠ b) :
    (l.foldl (lhsEdgeStep s i) p).1 i b = p.1 i b := by
  induction l generalizing p with
  | nil => rfl
  | cons x xs ih =>
    simp only [List.foldl_cons]
    rw [ih _ (fun e he => hb e (List.mem_cons_of_mem x he))]
    simp only [lhsEdgeStep, set_coef]
    rw [if_neg (fun hc => hb x (List.mem_cons_self x xs) hc.2.symm)]

/-- The in-edge loop stores `wij * omega_L` at the column of each visited
halfedge, provided no later halfedge writes the same column. -/
theorem lhsEdgeStep_fold_written (s : MCS) (i : Nat) (l : List Nat)
    (p : Mat × Int) (e : Nat) (he : e ∈ l) (hnd : l.Nodup)
    (huniq : ∀ e' ∈ l, colOf s e' = colOf s e → e' = e) :
    (l.foldl (lhsEdgeStep s i) p).1 i (colOf s e) = wij s e * s.omega_L := by
  induction l generalizing p with
  | nil => simp at he
  | cons x xs ih =>
    simp only [List.foldl_cons]
    by_cases hx : e = x
    · subst hx
      have hx' : e ∉ xs := (List.nodup_cons.mp hnd).1
      have hcols : ∀ e' ∈ xs, colOf s e' ≠ colOf s e := by
        intro e' he' hc
        exact hx' ((huniq e' (List.mem_cons_of_mem _ he') hc) ▸ he')
      rw [lhsEdgeStep_fold_other_col s i xs _ _ hcols]
      simp [lhsEdgeStep, set_coef]
    · have he' : e ∈ xs := by
        rcases List.mem_cons.mp he with h1 | h2
        · exact absurd h1 hx
        · exact h2
      exact ih _ he' (List.nodup_cons.mp hnd).2
        (fun e2 h2 hc => huniq e2 (List.mem_cons_of_mem _ h2) hc)

/-- A row other than its own is untouched by `lhsRow`. -/
theorem lhsRow_other (s : MCS) (A : Mat) (vb a b : Nat)
    (ha : a ≠ s.vertex_id_pmap.getD vb 0) :
    lhsRow s A vb a b = A a b := by
  simp only [lhsRow, set_coef]
  rw [if_neg (fun hc => ha hc.1)]
  exact lhsEdgeStep_fold_other_row s _ _ _ a b ha

/-- The diagonal entry `lhsRow` leaves in its own row: minus the sum of the
`wij` over the in-halfedges. -/
theorem lhsRow_diag (s : MCS) (A : Mat) (vb : Nat) :
    lhsRow s A vb (s.vertex_id_pmap.getD vb 0) (s.vertex_id_pmap.getD vb 0) =
      -((inEdges s.mesh vb).map (wij s)).sum := by
  simp [lhsRow, set_coef, lhsEdgeStep_fold_snd]

/-- The off-diagonal entry `lhsRow` leaves for an in-halfedge whose column
differs from the diagonal. -/
theorem lhsRow_offdiag (s : MCS) (A : Mat) (vb e : Nat)
    (he : e ∈ inEdges s.mesh vb) (hcol : colOf s e ≠ s.vertex_id_pmap.getD vb 0)
    (huniq : ∀ e' ∈ inEdges s.mesh vb, colOf s e' = colOf s e → e' = e) :
    lhsRow s A vb (s.vertex_id_pmap.getD vb 0) (colOf s e) =
      wij s e * s.omega_L := by
  simp only [lhsRow, set_coef]
  rw [if_neg (fun hc => hcol hc.2)]
  exact lhsEdgeStep_fold_written s _ _ _ e he
    ((List.nodup_range _).filter _) huniq

/-! ### C3: lemmas about the initialization and outer loops of
`assemble_LHS` -/

/-- Unfolding membership in `inEdges`. -/
theorem mem_inEdges {m : Mesh} {v e : Nat} :
    e ∈ inEdges m v ↔
      e ∈ List.range m.edges.length ∧ (m.edges.getD e dfltE).tgt = v := by
  simp [inEdges]

/-- Initialization iterations for other indices never write the anchor cell
`(i + nver, i)`. -/
theorem lhsInit_fold_frame (s : MCS) (l : List Nat) (A : Mat) (i : Nat)
    (h : ∀ k ∈ l, k ≠ i) :
    (l.foldl (lhsInitStep s) A) (i + numVertices s.mesh) i =
      A (i + numVertices s.mesh) i := by
  induction l generalizing A with
  | nil => rfl
  | cons x xs ih =>
    simp only [List.foldl_cons]
    rw [ih _ (fun k hk => h k (List.mem_cons_of_mem x hk))]
    have hx : x ≠ i := h x (List.mem_cons_self x xs)
    simp only [lhsInitStep, set_coef]
    rw [if_neg (fun hc => hx hc.2.symm), if_neg (fun hc => hx hc.2.symm)]

/-- The initialization loop stores `omega_H` at each anchor cell
`(i + nver, i)` for `i` on the list. -/
theorem lhsInit_fold_anchor (s : MCS) (l : List Nat) (A : Mat) (i : Nat)
    (hi : i ∈ l) (hnd : l.Nodup) :
    (l.foldl (lhsInitStep s) A) (i + numVertices s.mesh) i = s.omega_H := by
  induction l generalizing A with
  | nil => simp at hi
  | cons x xs ih =>
    simp only [List.foldl_cons]
    by_cases hx : i = x
    · subst hx
      rw [lhsInit_fold_frame s xs _ i
        (fun k hk he => (List.nodup_cons.mp hnd).1 (he ▸ hk))]
      simp [lhsInitStep, set_coef]
    · have hi' : i ∈ xs := by
        rcases List.mem_cons.mp hi with h1 | h2
        · exact absurd h1 hx
        · exact h2
      exact ih _ hi' (List.nodup_cons.mp hnd).2

/-- Row-assembly iterations never touch a row that is no vertex's id. -/
theorem lhsRow_fold_frame (s : MCS) (l : List Nat) (A : Mat) (a b : Nat)
    (h : ∀ vb ∈ l, a ≠ s.vertex_id_pmap.getD vb 0) :
    (l.foldl (lhsRow s) A) a b = A a b := by
  induction l generalizing A with
  | nil => rfl
  | cons x xs ih =>
    simp only [List.foldl_cons]
    rw [ih _ (fun vb hm => h vb (List.mem_cons_of_mem x hm))]
    exact lhsRow_other s A x a b (h x (List.mem_cons_self x xs))

/-- The outer loop leaves the diagonal of row `r` at minus the sum of the
`wij` over the in-halfedges of `r`, when ids are the identity on the list. -/
theorem lhsRow_fold_diag (s : MCS) (l : List Nat) (A : Mat) (r : Nat)
    (hr : r ∈ l) (hnd : l.Nodup)
    (hkey : ∀ vb ∈ l, s.vertex_id_pmap.getD vb 0 = vb) :
    (l.foldl (lhsRow s) A) r r = -((inEdges s.mesh r).map (wij s)).sum := by
  induction l generalizing A with
  | nil => simp at hr
  | cons x xs ih =>
    simp only [List.foldl_cons]
    by_cases hx : r = x
    · subst hx
      have hk := hkey r (List.mem_cons_self r xs)
      have hfr : ∀ vb ∈ xs, r ≠ s.vertex_id_pmap.getD vb 0 := by
        intro vb hm he
        rw [hkey vb (List.mem_cons_of_mem _ hm)] at he
        exact (List.nodup_cons.mp hnd).1 (he ▸ hm)
      rw [lhsRow_fold_frame s xs _ _ _ hfr]
      have : lhsRow s A r r r =
          lhsRow s A r (s.vertex_id_pmap.getD r 0) (s.vertex_id_pmap.getD r 0) := by
        rw [hk]
      rw [this, lhsRow_diag]
    · have hr' : r ∈ xs := by
        rcases List.mem_cons.mp hr with h1 | h2
        · exact absurd h1 hx
        · exact h2
      exact ih _ hr' (List.nodup_cons.mp hnd).2
        (fun vb hm => hkey vb (List.mem_cons_of_mem _ hm))

/-- The outer loop leaves `wij * omega_L` at the neighbor column of each
in-halfedge of row `r`, when ids are the identity on the list, the column
differs from the diagonal, and no other in-halfedge shares the column. -/
theorem lhsRow_fold_offdiag (s : MCS) (l : List Nat) (A : Mat) (r e : Nat)
    (hr : r ∈ l) (hnd : l.Nodup)
    (hkey : ∀ vb ∈ l, s.vertex_id_pmap.getD vb 0 = vb)
    (he : e ∈ inEdges s.mesh r) (hcol : colOf s e ≠ r)
    (huniq : ∀ e' ∈ inEdges s.mesh r, colOf s e' = colOf s e → e' = e) :
    (l.foldl (lhsRow s) A) r (colOf s e) = wij s e * s.omega_L := by
  induction l generalizing A with
  | nil => simp at hr
  | cons x xs ih =>
    simp only [List.foldl_cons]
    by_cases hx : r = x
    · subst hx
      have hk := hkey r (List.mem_cons_self r xs)
      have hfr : ∀ vb ∈ xs, r ≠ s.vertex_id_pmap.getD vb 0 := by
        intro vb hm hcontra
        rw [hkey vb (List.mem_cons_of_mem _ hm)] at hcontra
        exact (List.nodup_cons.mp hnd).1 (hcontra ▸ hm)
      rw [lhsRow_fold_frame s xs _ _ _ hfr]
      have hrow : lhsRow s A r r (colOf s e) =
          lhsRow s A r (s.vertex_id_pmap.getD r 0) (colOf s e) := by
        rw [hk]
      rw [hrow]
      exact lhsRow_offdiag s A r e he (by rw [hk]; exact hcol) huniq
    · have hr' : r ∈ xs := by
        rcases List.mem_cons.mp hr with h1 | h2
        · exact absurd h1 hx
        · exact h2
      exact ih _ hr' (List.nodup_cons.mp hnd).2
        (fun vb hm => hkey vb (List.mem_cons_of_mem _ hm))

/-! ### C3: counterexample, amended statement, witness -/

/-- C3 (counterexample): on a concrete two-vertex mesh with cached edge
weights `[0, 1]` and `omega_L = 1`, vertex id 0 has the single in-halfedge 1
with cached weight 1, yet `assemble_LHS` stores `A(0, 1) = 2`, not
`1 * omega_L = 1`, and `A(0, 0) = -2`, not `-1`: the code applies the cached
weight doubled. -/
theorem C3_counterexample :
    inEdges (compute_edge_weight cState3).mesh 0 = [1] ∧
    (compute_edge_weight cState3).edge_weight.getD 1 0 = 1 ∧
    (compute_edge_weight cState3).omega_L = 1 ∧
    (assemble_LHS (compute_edge_weight cState3) Mat.zero) 0 1 = 2 ∧
    ((2 : Int) ≠ 1 * 1) ∧
    (assemble_LHS (compute_edge_weight cState3) Mat.zero) 0 0 = -2 ∧
    ((-2 : Int) ≠ -1) := by
  decide

/-- C3 (amended): with densely packed ids, in-bound sources, no parallel
halfedges and no loops, `assemble_LHS` on a fresh matrix leaves, for every
vertex id `i`: `omega_H` at the anchor cell `(i + n, i)`; minus the sum of
the doubled cached weights of the in-halfedges at the diagonal `(i, i)`; and
the doubled cached weight times `omega_L` at `(i, src(e))` for each
in-halfedge `e` — i.e. the claim's entries hold with each cached weight
replaced by twice its value. -/
theorem C3_amended (s : MCS)
    (hid : s.vertex_id_pmap = List.range (numVertices s.mesh))
    (hed : s.edge_id_pmap = List.range (numEdges s.mesh))
    (hsrc : ∀ e ∈ List.range (numEdges s.mesh),
      (s.mesh.edges.getD e dfltE).src < numVertices s.mesh)
    (hsimple : ∀ e1 ∈ List.range (numEdges s.mesh),
      ∀ e2 ∈ List.range (numEdges s.mesh),
      (s.mesh.edges.getD e1 dfltE).tgt = (s.mesh.edges.getD e2 dfltE).tgt →
      (s.mesh.edges.getD e1 dfltE).src = (s.mesh.edges.getD e2 dfltE).src →
      e1 = e2)
    (hnoloop : ∀ e ∈ List.range (numEdges s.mesh),
      (s.mesh.edges.getD e dfltE).src ≠ (s.mesh.edges.getD e dfltE).tgt) :
    ∀ i, i < numVertices s.mesh →
      (assemble_LHS s Mat.zero) (i + numVertices s.mesh) i = s.omega_H ∧
      (assemble_LHS s Mat.zero) i i =
        -(((inEdges s.mesh i).map (fun e => s.edge_weight.getD e 0 * 2)).sum) ∧
      ∀ e ∈ inEdges s.mesh i,
        (assemble_LHS s Mat.zero) i ((s.mesh.edges.getD e dfltE).src) =
          s.edge_weight.getD e 0 * 2 * s.omega_L := by
  intro i hi
  have hkey : ∀ vb ∈ List.range (numVertices s.mesh),
      s.vertex_id_pmap.getD vb 0 = vb := by
    intro vb hm
    rw [hid, getD_range (List.mem_range.mp hm)]
  have hndr := List.nodup_range (numVertices s.mesh)
  have hwij : ∀ e ∈ inEdges s.mesh i, wij s e = s.edge_weight.getD e 0 * 2 := by
    intro e he
    unfold wij
    have hb : e < numEdges s.mesh := List.mem_range.mp (mem_inEdges.mp he).1
    rw [hed, getD_range hb]
  have hcol : ∀ e ∈ inEdges s.mesh i,
      colOf s e = (s.mesh.edges.getD e dfltE).src := by
    intro e he
    unfold colOf
    rw [hid, getD_range (hsrc e (mem_inEdges.mp he).1)]
  refine ⟨?_, ?_, ?_⟩
  · unfold assemble_LHS
    have hfr : ∀ vb ∈ List.range (numVertices s.mesh),
        i + numVertices s.mesh ≠ s.vertex_id_pmap.getD vb 0 := by
      intro vb hm
      rw [hkey vb hm]
      have := List.mem_range.mp hm
      omega
    rw [lhsRow_fold_frame s _ _ _ _ hfr]
    exact lhsInit_fold_anchor s _ Mat.zero i (List.mem_range.mpr hi) hndr
  · unfold assemble_LHS
    rw [lhsRow_fold_diag s _ _ i (List.mem_range.mpr hi) hndr hkey]
    have : (inEdges s.mesh i).map (wij s) =
        (inEdges s.mesh i).map (fun e => s.edge_weight.getD e 0 * 2) :=
      List.map_congr_left hwij
    rw [this]
  · intro e he
    have htgt : (s.mesh.edges.getD e dfltE).tgt = i := (mem_inEdges.mp he).2
    have hcne : colOf s e ≠ i := by
      rw [hcol e he]
      intro hc
      exact hnoloop e (mem_inEdges.mp he).1 (htgt ▸ hc)
    have huniq : ∀ e' ∈ inEdges s.mesh i, colOf s e' = colOf s e → e' = e := by
      intro e' he' hc
      rw [hcol e' he', hcol e he] at hc
      exact hsimple e' (mem_inEdges.mp he').1 e (mem_inEdges.mp he).1
        (by rw [(mem_inEdges.mp he').2, htgt]) hc
    have hres := lhsRow_fold_offdiag s (List.range (numVertices s.mesh))
      (lhsInit s Mat.zero) i e (List.mem_range.mpr hi) hndr hkey he hcne huniq
    unfold assemble_LHS
    rw [← hcol e he, hres, hwij e he]

/-- C3 (witness): the amended statement instantiated on the concrete
two-vertex state after its first weight recomputation, at vertex id 0 with
in-halfedge 1. -/
theorem C3_amended_witness :
    (assemble_LHS (compute_edge_weight cState3) Mat.zero)
        (0 + numVertices (compute_edge_weight cState3).mesh) 0 =
      (compute_edge_weight cState3).omega_H ∧
    (assemble_LHS (compute_edge_weight cState3) Mat.zero) 0 0 =
      -(((inEdges (compute_edge_weight cState3).mesh 0).map
          (fun e => (compute_edge_weight cState3).edge_weight.getD e 0 * 2)).sum) :=
  ⟨(C3_amended (compute_edge_weight cState3) (by decide) (by decide) (by decide)
      (by decide) (by decide) 0 (by decide)).1,
   (C3_amended (compute_edge_weight cState3) (by decide) (by decide) (by decide)
      (by decide) (by decide) 0 (by decide)).2.1⟩

/-! ### C2 -/

/-- C2 (bug evaluation): on the concrete two-vertex state, the second call to
`contract_geometry` begins by recomputing the weights, but because
`compute_edge_weight` only appends (`reserve` + `push_back`, no clear), the
cache then holds two entries per halfedge (`[0, 1, 5, 5]`), and the entry
`assemble_LHS` reads for halfedge 0 — index `get(edge_id_pmap, 0) = 0` — is
still the first call's weight 0, although the weight calculator on the
current (post-move) geometry yields 5. -/
theorem C2_stale_cache_eval :
    (contract_geometry cState3).edge_weight = [0, 1] ∧
    numEdges cState3.mesh = 2 ∧
    (compute_edge_weight (contract_geometry cState3)).edge_weight =
      [0, 1, 5, 5] ∧
    (compute_edge_weight (contract_geometry cState3)).edge_weight.getD
      ((compute_edge_weight (contract_geometry cState3)).edge_id_pmap.getD 0 0)
      0 = 0 ∧
    (contract_geometry cState3).weight_calculator 0
      (contract_geometry cState3).mesh = 5 ∧
    ((0 : Int) ≠ 5) := by
  decide

end MCFSkel
